import Mathlib

/-!
Verification of the SENTI-RECOMMENDATION repository.

Shallow embedding of `src/model.py` (text preprocessing, sentiment
prediction, recommendation scoring, artifact loading / singleton) and of
the request-count handling shared by `src/app.py` and `src/api/index.py`.

Numeric probabilities are modelled by `ℚ`; the pickled artifacts
(TF-IDF vectorizer, sentiment classifier, collaborative-filtering
recommender) are opaque and modelled as function parameters.
-/

namespace SentiRec

/-! ### Text preprocessing (`preprocess_text`, model.py lines 49-104)

Characters are handled as `List Char`.  The regular-expression
substitutions of the source are embedded by their effect:

* `re.sub(r'http\S+|www\S+|https\S+', '', text)`: a match starts at any
  position holding the literal `http` (or `www`) followed by at least one
  non-whitespace character, and the greedy `\S+` extends the match to the
  end of the surrounding whitespace-free run.  Hence, inside each maximal
  whitespace-free run the substitution deletes everything from the first
  such position onwards; whitespace is untouched.  (`https\S+` is
  subsumed by `http\S+`.)
* `re.sub(r'\S+@\S+', '', text)`: a match must stay inside one maximal
  whitespace-free run, needs an `@` that has at least one run character
  before it and one after it, and the greedy `\S+` pieces extend the
  match to the whole run.  Hence each run containing an `@` at an
  interior position (not first, not last) is deleted wholesale.
-/

/-- Whitespace as matched by Python `\s` / `str.split()` (ASCII range). -/
def pyIsSpace (c : Char) : Bool :=
  c = ' ' || c = '\t' || c = '\n' || c = '\r' || c = '\x0b' || c = '\x0c'

/-- Python `str.lower()` on one character (ASCII range). -/
def pyLowerChar (c : Char) : Char :=
  if 'A' ≤ c ∧ c ≤ 'Z' then Char.ofNat (c.toNat + 32) else c

/-- Python `str.lower()`. -/
def pyLower (l : List Char) : List Char := l.map pyLowerChar

/-- Does the URL pattern `http\S+|www\S+|https\S+` match at the head of a
whitespace-free run? -/
def urlHeadMatch : List Char → Bool
  | 'h' :: 't' :: 't' :: 'p' :: _ :: _ => true
  | 'w' :: 'w' :: 'w' :: _ :: _ => true
  | _ => false

/-- Effect of the URL substitution inside one whitespace-free run: cut the
run at the first position where the URL pattern matches. -/
def urlCut : List Char → List Char
  | [] => []
  | c :: cs => if urlHeadMatch (c :: cs) then [] else c :: urlCut cs

/-- Does `\S+@\S+` match inside this whitespace-free run, i.e. is there an
`@` which is neither the first nor the last character of the run? -/
def emailKill (run : List Char) : Bool :=
  run.tail.dropLast.contains '@'

/-- Effect of the email substitution on one whitespace-free run. -/
def emailCut (run : List Char) : List Char :=
  if emailKill run then [] else run

/-- One step of a right fold that applies `emit` to every maximal
whitespace-free run while keeping all whitespace characters in place.
The state is (current run, processed remainder). -/
def runStep (emit : List Char → List Char) (c : Char) (st : List Char × List Char) :
    List Char × List Char :=
  if pyIsSpace c then ([], c :: (emit st.1 ++ st.2)) else (c :: st.1, st.2)

/-- Apply `emit` to every maximal whitespace-free run of `l`, keeping the
whitespace characters in place. -/
def runFoldr (emit : List Char → List Char) (l : List Char) : List Char :=
  let st := l.foldr (runStep emit) ([], [])
  emit st.1 ++ st.2

/-- Embeds `re.sub(r'http\S+|www\S+|https\S+', '', text)` (model.py line 75). -/
def stripUrls : List Char → List Char := runFoldr urlCut

/-- Embeds `re.sub(r'\S+@\S+', '', text)` (model.py line 78). -/
def stripEmails : List Char → List Char := runFoldr emailCut

/-- The character class kept by `re.sub(r'[^a-z0-9\s]', '', text)`. -/
def keepChar (c : Char) : Bool :=
  ('a' ≤ c && c ≤ 'z') || ('0' ≤ c && c ≤ '9') || pyIsSpace c

/-- Embeds `re.sub(r'[^a-z0-9\s]', '', text)` (model.py line 81). -/
def stripSpecial (l : List Char) : List Char := l.filter keepChar

/-- One step of `str.split()`: splitting on every whitespace character
(empty fields are produced here and filtered in `pySplit`). -/
def splitStep (c : Char) (acc : List (List Char)) : List (List Char) :=
  if pyIsSpace c then [] :: acc else (c :: acc.headD []) :: acc.tail

/-- All fields obtained by cutting at each whitespace character. -/
def splitRaw (l : List Char) : List (List Char) := l.foldr splitStep [[]]

/-- Python `str.split()` (no argument): split on whitespace, discarding
empty fields (model.py line 84). -/
def pySplit (l : List Char) : List (List Char) :=
  (splitRaw l).filter (fun t => !t.isEmpty)

/-- The builtin fallback stopword list (model.py lines 29-34). -/
def FALLBACK_STOPWORDS : List (List Char) :=
  (["the", "a", "an", "and", "or", "but", "in", "on", "at", "to", "for",
    "of", "with", "by", "from", "as", "is", "was", "are", "were", "been",
    "be", "have", "has", "had", "do", "does", "did", "will", "would",
    "should", "could", "may", "might", "must", "can", "this", "that",
    "these", "those", "i", "you", "he", "she", "it", "we", "they",
    "me", "him", "her", "us", "them", "my", "your", "his", "its", "our"]
    : List String).map String.toList

/-- Normalizer configuration: the active stopword set (NLTK's list or the
fallback list, resolved at call time in the source) and the lemmatizer
(`WordNetLemmatizer.lemmatize`, or the identity when the NLTK resource is
unavailable / lemmatization fails). -/
structure NormCfg where
  stopwords : List (List Char)
  lemmatize : List Char → List Char

/-- Embeds `[t for t in tokens if t not in stop_words and len(t) > 2]`
(model.py line 94). -/
def tokenFilter (sw : List (List Char)) (ts : List (List Char)) : List (List Char) :=
  ts.filter (fun t => !sw.contains t && decide (2 < t.length))

/-- Embeds `' '.join(tokens)` (model.py line 104). -/
def joinSpace : List (List Char) → List Char
  | [] => []
  | [t] => t
  | t :: ts => t ++ ' ' :: joinSpace ts

/-- Python `str.strip()` (used in the empty-input guard and by the HTTP
handlers). -/
def pyStripChars (l : List Char) : List Char :=
  ((l.dropWhile pyIsSpace).reverse.dropWhile pyIsSpace).reverse

/-- A Python value passed where a `str` is expected: either an actual
string or something that fails `isinstance(text, str)`. -/
inductive PyVal where
  | str (s : String)
  | nonStr
  deriving DecidableEq

/-- The token list produced by the preprocessing pipeline on the
character list of a non-empty input string. -/
def tokensOf (cfg : NormCfg) (l : List Char) : List (List Char) :=
  (tokenFilter cfg.stopwords
      (pySplit (stripSpecial (stripEmails (stripUrls (pyLower l)))))).map cfg.lemmatize

/-- The preprocessing pipeline on the character list of an input that
passed the guard (model.py lines 72-104). -/
def preprocessList (cfg : NormCfg) (l : List Char) : List Char :=
  joinSpace (tokensOf cfg l)

/-- Embeds `preprocess_text` (model.py lines 49-104). -/
def preprocess_text (cfg : NormCfg) : PyVal → String
  | .nonStr => ""
  | .str s => if pyStripChars s.toList = [] then "" else String.mk (preprocessList cfg s.toList)

/-! ### Sentiment prediction (`predict_sentiment`, model.py lines 188-227)

The pickled TF-IDF vectorizer and logistic-regression classifier are
opaque artifacts; their composition is modelled by two functions of the
preprocessed text: the predicted class (`predict(...)[0] == 1`) and the
positive-class probability (`predict_proba(...)[0, 1]`). -/

/-- The loaded vectorizer + classifier pair, as functions of the
preprocessed text. -/
structure MLModel where
  predictClass : String → Bool
  predictProb : String → ℚ

inductive Sentiment where
  | positive
  | negative
  | unknown
  deriving DecidableEq

/-- The dict returned by `predict_sentiment`. -/
structure SentimentResult where
  sentiment : Sentiment
  probability : ℚ
  confidence : ℚ
  error : Option String
  deriving DecidableEq

/-- Embeds `predict_sentiment` (model.py lines 188-227). -/
def predict_sentiment (m : MLModel) (cfg : NormCfg) (review_text : PyVal) : SentimentResult :=
  let processed := preprocess_text cfg review_text
  if processed = "" then
    { sentiment := .unknown, probability := 1/2, confidence := 0,
      error := some "Review text is empty after preprocessing" }
  else
    let probability := m.predictProb processed
    { sentiment := if m.predictClass processed then .positive else .negative,
      probability := probability,
      confidence := max probability (1 - probability),
      error := none }

/-! ### Recommendation generation (`recommend_products`, model.py lines 233-315) -/

/-- One row of the loaded `master_reviews.pkl` dataframe (the two columns
used by the engine). -/
structure ReviewRow where
  name : String
  reviews_text : String
  deriving DecidableEq

/-- The loaded `user_based_cf.pkl` recommender: a known-user index and an
opaque candidate generator `recommend(username, n)`. -/
structure CFRecommender where
  user_index : List String
  recommend : String → ℕ → List String

/-- One entry of `product_scores` (model.py lines 288-292). -/
structure ProductScore where
  product : String
  positive_ratio : ℚ
  review_count : ℕ
  deriving DecidableEq

/-- One formatted recommendation (model.py lines 298-305). -/
structure Recommendation where
  product : String
  sentiment_score : ℚ
  review_count : ℕ
  deriving DecidableEq

/-- The dict returned by `recommend_products`. -/
structure RecommendationResult where
  recommendations : List Recommendation
  explanation : String
  cold_start : Bool
  deriving DecidableEq

/-- Embeds `reviews_df[reviews_df['name'] == product_name]['reviews_text'].values`
(model.py line 273). -/
def productReviews (reviews_df : List ReviewRow) (product_name : String) : List String :=
  (reviews_df.filter (fun r => r.name = product_name)).map ReviewRow.reviews_text

/-- The `product_scores` list built by the scoring loop (model.py lines
269-292): candidates with zero reviews are skipped, the rest get the mean
predicted positive probability over their reviews and the review count. -/
def scoreCandidates (m : MLModel) (cfg : NormCfg) (reviews_df : List ReviewRow)
    (cands : List String) : List ProductScore :=
  cands.filterMap fun product_name =>
    let product_reviews := productReviews reviews_df product_name
    if product_reviews.length = 0 then none
    else
      let sentiments := product_reviews.map
        fun review => (predict_sentiment m cfg (.str review)).probability
      some { product := product_name,
             positive_ratio := sentiments.sum / (sentiments.length : ℚ),
             review_count := sentiments.length }

/-- The comparison used by
`product_scores.sort(key=lambda x: x['positive_ratio'], reverse=True)`. -/
def ratioGE (a b : ProductScore) : Prop := b.positive_ratio ≤ a.positive_ratio

instance : DecidableRel ratioGE :=
  fun a b => inferInstanceAs (Decidable (b.positive_ratio ≤ a.positive_ratio))

/-- Python `list.sort(key=..., reverse=True)` is a stable descending
sort; it is modelled by stable insertion sort under `ratioGE`
(model.py line 295). -/
def sortScores (l : List ProductScore) : List ProductScore := List.insertionSort ratioGE l

/-- Embeds `recommend_products` (model.py lines 233-315). -/
def recommend_products (rec : CFRecommender) (m : MLModel) (cfg : NormCfg)
    (reviews_df : List ReviewRow) (username : String) (n : ℕ) : RecommendationResult :=
  let is_cold_start := !(rec.user_index.contains username)
  let cf_candidates := rec.recommend username 50
  if cf_candidates = [] then
    { recommendations := [],
      explanation := "No recommendations available",
      cold_start := is_cold_start }
  else
    let product_scores := sortScores (scoreCandidates m cfg reviews_df cf_candidates)
    { recommendations := (product_scores.take n).map
        fun item => { product := item.product,
                      sentiment_score := item.positive_ratio,
                      review_count := item.review_count },
      explanation := if is_cold_start then
          "Recommended based on popularity"
        else
          "Recommended based on collaborative filtering + sentiment analysis",
      cold_start := is_cold_start }

/-! ### Artifact loading and singleton (`_load_artifacts`, `_load_pickle`,
`get_system`; model.py lines 122-182 and 362-369)

The file system is a predicate on paths, `pickle.load` an opaque function
from paths to loaded objects.  `_load_artifacts` checks file existence
under the instance directory `self.pickle_dir`, while the static
`_load_pickle` opens files under the module-level global `PICKLE_DIR`;
both directories are therefore parameters of the embedding. -/

/-- The four required pickle files, in the order of the `required_files`
dict (model.py lines 139-144). -/
def requiredFiles : List String :=
  ["tfidf_vectorizer.pkl", "sentiment_model.pkl", "user_based_cf.pkl", "master_reviews.pkl"]

/-- Embeds `os.path.join(dir, fname)`. -/
def joinPath (dir fname : String) : String := dir ++ "/" ++ fname

/-- The `missing` list built by `_load_artifacts` (model.py lines
147-151): every required file whose path under the instance's
`pickle_dir` does not exist, in `required_files` order. -/
def missingFiles (fileExists : String → Bool) (pickle_dir : String) : List String :=
  requiredFiles.filter (fun fname => !fileExists (joinPath pickle_dir fname))

/-- The four artifacts held by a loaded `SentimentRecommenderSystem`. -/
structure LoadedArtifacts (α : Type) where
  tfidf_vectorizer : α
  sentiment_model : α
  recommender : α
  reviews_df : α
  deriving DecidableEq

/-- Embeds `SentimentRecommenderSystem.__init__` / `_load_artifacts` (model.py
lines 122-175): raise `FileNotFoundError` with the `missing` list if any
required file is absent from `pickle_dir`, otherwise load the four
pickles via `_load_pickle`, which joins the file names onto the global
`PICKLE_DIR` (model.py line 180). -/
def loadArtifacts {α : Type} (fileExists : String → Bool) (load : String → α)
    (PICKLE_DIR pickle_dir : String) : Except (List String) (LoadedArtifacts α) :=
  let missing := missingFiles fileExists pickle_dir
  if missing = [] then
    .ok { tfidf_vectorizer := load (joinPath PICKLE_DIR "tfidf_vectorizer.pkl"),
          sentiment_model := load (joinPath PICKLE_DIR "sentiment_model.pkl"),
          recommender := load (joinPath PICKLE_DIR "user_based_cf.pkl"),
          reviews_df := load (joinPath PICKLE_DIR "master_reviews.pkl") }
  else .error missing

/-- Embeds `get_system` (model.py lines 362-369), with the module-global
`_system` passed as explicit state: if the cached handle exists it is
returned unchanged, otherwise the system is constructed with the default
`pickle_dir = PICKLE_DIR`. -/
def get_system {α : Type} (fileExists : String → Bool) (load : String → α)
    (PICKLE_DIR : String) (st : Option (LoadedArtifacts α)) :
    Option (LoadedArtifacts α) × Except (List String) (LoadedArtifacts α) :=
  match st with
  | some s => (some s, .ok s)
  | none =>
    match loadArtifacts fileExists load PICKLE_DIR PICKLE_DIR with
    | .ok s => (some s, .ok s)
    | .error e => (none, .error e)

/-! ### HTTP boundary: recommendation-count handling (`api_recommend_products`,
app.py lines 144-167; `handle_recommend`, api/index.py lines 97-118) -/

/-- A JSON value bound to `n_recommendations`: an integer or anything
failing `isinstance(n, int)`. -/
inductive JVal where
  | int (i : Int)
  | other
  deriving DecidableEq

/-- Python `str.strip()` on a `String`. -/
def pyStrip (s : String) : String := String.mk (pyStripChars s.toList)

/-- Embeds `n = data.get('n_recommendations', 5)` followed by
`if not isinstance(n, int) or n < 1 or n > 20: n = 5`
(app.py lines 152 and 160-161; api/index.py lines 106 and 114-115). -/
def resolveN (nv : Option JVal) : Int :=
  match nv.getD (JVal.int 5) with
  | .int i => if i < 1 ∨ 20 < i then 5 else i
  | .other => 5

/-- The recommendation-count actually used by an accepted `/api/recommend`
request: `none` when the request is rejected (empty or over-long
username), otherwise the resolved count (app.py lines 151-167;
api/index.py lines 105-118). -/
def handleRecommendN (username : String) (nv : Option JVal) : Option Int :=
  let u := pyStrip username
  if u = "" then none
  else if 50 < u.length then none
  else some (resolveN nv)

/-! ### Concrete instances used by witnesses and counterexamples -/

/-- Normalizer configuration with the fallback stopword list and
pass-through lemmatization. -/
def cfgFallback : NormCfg := ⟨FALLBACK_STOPWORDS, id⟩

/-- A concrete classifier returning positive probability 1/2. -/
def mHalf : MLModel := ⟨fun _ => true, fun _ => 1/2⟩

/-- A concrete classifier returning positive probability 3/4. -/
def mThreeQ : MLModel := ⟨fun _ => true, fun _ => 3/4⟩

/-- A recommender with no known users and no candidates. -/
def emptyRec : CFRecommender := ⟨[], fun _ _ => []⟩

/-- A recommender knowing user `alice` and producing one candidate. -/
def oneRec : CFRecommender := ⟨["alice"], fun _ _ => ["prodA"]⟩

/-- A one-row review corpus. -/
def oneRowDf : List ReviewRow := [⟨"prodA", "great product works fine"⟩]

/-- Spec-worded recommendation-count clamping: the requested count
clamped into the range `[1, 20]` (follows the spec's words, for
comparison with the code's `resolveN`). -/
def clampSpec (i : Int) : Int := max 1 (min 20 i)

instance : IsTotal ProductScore ratioGE :=
  ⟨fun a b => le_total b.positive_ratio a.positive_ratio⟩

instance : IsTrans ProductScore ratioGE :=
  ⟨fun _ _ _ hab hbc => le_trans hbc hab⟩

/-- The sort comparison lifted to index-annotated scores. -/
def ratioGEIdx (p q : ℕ × ProductScore) : Prop := ratioGE p.2 q.2

instance : DecidableRel ratioGEIdx := fun p q => inferInstanceAs (Decidable (ratioGE p.2 q.2))

instance : IsTotal (ℕ × ProductScore) ratioGEIdx :=
  ⟨fun p q => le_total q.2.positive_ratio p.2.positive_ratio⟩

instance : IsTrans (ℕ × ProductScore) ratioGEIdx :=
  ⟨fun _ _ _ hab hbc => le_trans hbc hab⟩

/-- Stable descending order on index-annotated scores: strictly larger
ratio first, ties resolved by the original position. -/
def stableBelow (p q : ℕ × ProductScore) : Prop :=
  q.2.positive_ratio < p.2.positive_ratio ∨
    (p.2.positive_ratio = q.2.positive_ratio ∧ p.1 < q.1)

/-- The character class of preprocessed tokens: lowercase ASCII letters
and digits. -/
def isLowerAlnum (c : Char) : Bool :=
  ('a' ≤ c && c ≤ 'z') || ('0' ≤ c && c ≤ '9')

/-- A concrete lemmatizer fragment: WordNet's irregular noun `oxen` is
lemmatized to `ox` (all other tokens pass through). -/
def oxLemma : List Char → List Char :=
  fun t => if t = "oxen".toList then "ox".toList else t

/-- Normalizer configuration with the fallback stopwords and the `oxen`
lemmatizer fragment. -/
def cfgOx : NormCfg := ⟨FALLBACK_STOPWORDS, oxLemma⟩

/-! ### Sanity checks on concrete inputs -/

example :
    preprocess_text ⟨FALLBACK_STOPWORDS, id⟩ (.str "Check it now!! Loved the product") =
      "check now loved product" := by decide

example : preprocess_text ⟨FALLBACK_STOPWORDS, id⟩ (.str "   ") = "" := by decide

example : preprocess_text ⟨FALLBACK_STOPWORDS, id⟩ (.str "see www.x.co or a@b.c") = "see" := by
  decide

example : resolveN (some (.int 25)) = 5 := by decide

example : resolveN (some (.int 7)) = 7 := by decide

example :
    (recommend_products ⟨[], fun _ _ => []⟩ ⟨fun _ => true, fun _ => 1⟩
      ⟨FALLBACK_STOPWORDS, id⟩ [] "bob" 5).explanation = "No recommendations available" := by
  decide

/-! ### Claim C4 -/

/-- Claim C4: for every model (so in particular without ever invoking the
vectorizer or classifier, hence without any possibility of an inference
exception), an input that is not a string, or whose normalization is the
empty string, makes `predict_sentiment` return the fixed
`Unknown / 0.5 / 0.0` result together with the error message; moreover a
non-string input and a whitespace-only string both normalize to the empty
string. -/
theorem predict_sentiment_empty_unknown (m : MLModel) (cfg : NormCfg) :
    (∀ v : PyVal, (v = PyVal.nonStr ∨ preprocess_text cfg v = "") →
      predict_sentiment m cfg v =
        { sentiment := .unknown, probability := 1/2, confidence := 0,
          error := some "Review text is empty after preprocessing" }) ∧
    preprocess_text cfg PyVal.nonStr = "" ∧
    (∀ s : String, pyStripChars s.toList = [] → preprocess_text cfg (.str s) = "") := by
  refine ⟨?_, rfl, ?_⟩
  · rintro v (rfl | h)
    · rfl
    · simp [predict_sentiment, h]
  · intro s h
    have h2 : pyStripChars s.data = [] := h
    simp [preprocess_text, h2]

/-- Witness for C4 at a whitespace-only input. -/
theorem predict_sentiment_empty_unknown_witness :
    ((PyVal.str " \t ") = PyVal.nonStr ∨ preprocess_text cfgFallback (.str " \t ") = "") ∧
    predict_sentiment mHalf cfgFallback (.str " \t ") =
      { sentiment := .unknown, probability := 1/2, confidence := 0,
        error := some "Review text is empty after preprocessing" } :=
  ⟨Or.inr (by decide),
    (predict_sentiment_empty_unknown mHalf cfgFallback).1 (.str " \t ") (Or.inr (by decide))⟩

/-! ### Claim C3 -/

/-- Counterexample to C3 as stated: on the empty input the returned
confidence is `0`, not `max probability (1 - probability) = 1/2`. -/
theorem predict_sentiment_confidence_counterexample :
    (predict_sentiment mHalf cfgFallback (.str "")).confidence ≠
      max (predict_sentiment mHalf cfgFallback (.str "")).probability
        (1 - (predict_sentiment mHalf cfgFallback (.str "")).probability) := by
  have h1 : preprocess_text cfgFallback (.str "") = "" := by decide
  simp only [predict_sentiment, h1, reduceIte]
  norm_num

/-- Claim C3 (amended): provided the classifier's probabilities lie in
`[0,1]`, `predict_sentiment` always returns probability and confidence
in `[0,1]`, and on every input that does not normalize to the empty
string the confidence equals `max probability (1 - probability)`. -/
theorem predict_sentiment_bounds (m : MLModel) (cfg : NormCfg) (v : PyVal)
    (hb : ∀ s, 0 ≤ m.predictProb s ∧ m.predictProb s ≤ 1) :
    0 ≤ (predict_sentiment m cfg v).probability ∧
    (predict_sentiment m cfg v).probability ≤ 1 ∧
    0 ≤ (predict_sentiment m cfg v).confidence ∧
    (predict_sentiment m cfg v).confidence ≤ 1 ∧
    (preprocess_text cfg v ≠ "" →
      (predict_sentiment m cfg v).confidence =
        max (predict_sentiment m cfg v).probability
          (1 - (predict_sentiment m cfg v).probability)) := by
  by_cases h : preprocess_text cfg v = ""
  · simp [predict_sentiment, h]
    norm_num
  · obtain ⟨h0, h1⟩ := hb (preprocess_text cfg v)
    simp only [predict_sentiment]
    rw [if_neg h]
    exact ⟨h0, h1, le_max_of_le_left h0, max_le h1 (by linarith), fun _ => rfl⟩

/-- Witness for C3 (amended) at a non-empty input with probability 3/4. -/
theorem predict_sentiment_bounds_witness :
    (∀ s, 0 ≤ mThreeQ.predictProb s ∧ mThreeQ.predictProb s ≤ 1) ∧
    0 ≤ (predict_sentiment mThreeQ cfgFallback (.str "good")).probability ∧
    (predict_sentiment mThreeQ cfgFallback (.str "good")).probability ≤ 1 ∧
    0 ≤ (predict_sentiment mThreeQ cfgFallback (.str "good")).confidence ∧
    (predict_sentiment mThreeQ cfgFallback (.str "good")).confidence ≤ 1 ∧
    (preprocess_text cfgFallback (.str "good") ≠ "" →
      (predict_sentiment mThreeQ cfgFallback (.str "good")).confidence =
        max (predict_sentiment mThreeQ cfgFallback (.str "good")).probability
          (1 - (predict_sentiment mThreeQ cfgFallback (.str "good")).probability)) :=
  ⟨fun _ => by norm_num [mThreeQ],
    predict_sentiment_bounds mThreeQ cfgFallback (.str "good")
      (fun _ => by norm_num [mThreeQ])⟩

/-! ### Claim C9 -/

/-- Counterexample to C9 as stated: an accepted request with count 25
uses 5, while clamping into `[1,20]` would give 20. -/
theorem handleRecommendN_not_clamp :
    handleRecommendN "alice" (some (.int 25)) = some 5 ∧
    clampSpec 25 = 20 ∧ (5 : Int) ≠ 20 := by
  decide

/-- Claim C9 (amended): for every accepted recommendation request the
count actually used lies in `[1,20]`; it equals the requested count when
that is an integer already in `[1,20]`, and the default 5 otherwise
(missing, non-integer, or out-of-range). -/
theorem handleRecommendN_resolved (username : String) (nv : Option JVal) (k : Int)
    (h : handleRecommendN username nv = some k) :
    (1 ≤ k ∧ k ≤ 20) ∧
    (∀ i, nv = some (.int i) → 1 ≤ i → i ≤ 20 → k = i) ∧
    (∀ i, nv = some (.int i) → (i < 1 ∨ 20 < i) → k = 5) ∧
    (nv = some .other → k = 5) ∧
    (nv = none → k = 5) := by
  have hk : k = resolveN nv := by
    simp only [handleRecommendN] at h
    split at h
    · exact Option.noConfusion h
    · split at h
      · exact Option.noConfusion h
      · exact (Option.some_inj.mp h).symm
  subst hk
  refine ⟨?_, ?_, ?_, ?_, ?_⟩
  · rcases nv with _ | j
    · exact ⟨by decide, by decide⟩
    · rcases j with i | _
      · refine ⟨?_, ?_⟩ <;> (simp only [resolveN, Option.getD_some]; split <;> omega)
      · exact ⟨by decide, by decide⟩
  · intro i hi h1 h2
    subst hi
    simp only [resolveN, Option.getD_some]
    rw [if_neg (by omega)]
  · intro i hi hout
    subst hi
    simp only [resolveN, Option.getD_some]
    rw [if_pos hout]
  · intro hi
    subst hi
    decide
  · intro hi
    subst hi
    decide

/-- Witness for C9 (amended) at an in-range request. -/
theorem handleRecommendN_resolved_witness :
    handleRecommendN "alice" (some (.int 7)) = some 7 ∧ 1 ≤ (7:Int) ∧ (7:Int) ≤ 20 :=
  ⟨by decide,
    ((handleRecommendN_resolved "alice" (some (.int 7)) 7 (by decide)).1).1,
    ((handleRecommendN_resolved "alice" (some (.int 7)) 7 (by decide)).1).2⟩

/-! ### Claim C6 -/

/-- Claim C6: artifact loading fails if and only if at least one of the
four required files is absent from the checked directory, and on failure
the error lists exactly the missing files (in `required_files` order);
once a handle is cached, every later `get_system` call returns that same
handle unchanged (independently of the file system, so nothing is
reloaded). -/
theorem loadArtifacts_spec {α : Type} (fileExists : String → Bool) (load : String → α)
    (PD pd : String) :
    (∀ e, loadArtifacts fileExists load PD pd = .error e →
      e = missingFiles fileExists pd ∧ e ≠ []) ∧
    ((∃ f ∈ requiredFiles, fileExists (joinPath pd f) = false) ↔
      ∃ e, loadArtifacts fileExists load PD pd = .error e) ∧
    (∀ s : LoadedArtifacts α, get_system fileExists load PD (some s) = (some s, .ok s)) := by
  refine ⟨?_, ?_, fun s => rfl⟩
  · intro e he
    simp only [loadArtifacts] at he
    split at he
    · exact Except.noConfusion he
    · rename_i hne
      injection he with h
      subst h
      exact ⟨rfl, hne⟩
  · constructor
    · rintro ⟨f, hf, hmiss⟩
      have hne : missingFiles fileExists pd ≠ [] := by
        intro hnil
        have hm : f ∈ missingFiles fileExists pd :=
          List.mem_filter.mpr ⟨hf, by simp [hmiss]⟩
        rw [hnil] at hm
        exact absurd hm (List.not_mem_nil f)
      refine ⟨missingFiles fileExists pd, ?_⟩
      simp only [loadArtifacts]
      rw [if_neg hne]
    · rintro ⟨e, he⟩
      simp only [loadArtifacts] at he
      split at he
      · exact Except.noConfusion he
      · rename_i hne
        obtain ⟨f, hf⟩ := List.exists_mem_of_ne_nil _ hne
        have hmf := List.mem_filter.mp hf
        exact ⟨f, hmf.1, by simpa using hmf.2⟩

/-- Witness for C6: with no file present the load fails listing all four
required files, and a cached handle is returned unchanged. -/
theorem loadArtifacts_spec_witness :
    (loadArtifacts (fun _ => false) (fun _ => (0:ℕ)) "src" "src" = .error requiredFiles) ∧
    requiredFiles = missingFiles (fun _ => false) "src" ∧
    requiredFiles ≠ [] ∧
    get_system (fun _ => false) (fun _ => (0:ℕ)) "src" (some ⟨0, 0, 0, 0⟩) =
      (some ⟨0, 0, 0, 0⟩, .ok ⟨0, 0, 0, 0⟩) :=
  ⟨rfl,
    ((loadArtifacts_spec (fun _ => false) (fun _ => (0:ℕ)) "src" "src").1
      requiredFiles rfl).1,
    ((loadArtifacts_spec (fun _ => false) (fun _ => (0:ℕ)) "src" "src").1
      requiredFiles rfl).2,
    (loadArtifacts_spec (fun _ => false) (fun _ => (0:ℕ)) "src" "src").2.2 ⟨0, 0, 0, 0⟩⟩

/-! ### Claim C8 -/

/-- Claim C8 fails on the code: with a configured `pickle_dir` different
from the module-level `PICKLE_DIR`, file presence is checked in the
configured directory but the four pickles are opened from `PICKLE_DIR`
(the static `_load_pickle` joins onto the global).  Here the file system
reports every path as existing, `load` is the identity on paths, the
global directory is `srcdir` and the configured directory `customdir`:
every loaded path lies under `srcdir`, not under the checked
`customdir`. -/
theorem loadArtifacts_ignores_configured_dir :
    loadArtifacts (fun _ => true) (fun p => p) "srcdir" "customdir" =
      .ok { tfidf_vectorizer := "srcdir/tfidf_vectorizer.pkl",
            sentiment_model := "srcdir/sentiment_model.pkl",
            recommender := "srcdir/user_based_cf.pkl",
            reviews_df := "srcdir/master_reviews.pkl" } ∧
    "srcdir/tfidf_vectorizer.pkl" ≠ joinPath "customdir" "tfidf_vectorizer.pkl" := by
  exact ⟨rfl, by decide⟩

/-! ### Claim C5 -/

/-- Counterexample to C5 as stated: for a cold-start user whose candidate
list is empty, the explanation is the fixed no-candidates string, which
does not mention popularity. -/
theorem recommend_products_explanation_counterexample :
    (recommend_products emptyRec mHalf cfgFallback [] "bob" 5).cold_start = true ∧
    ("bob" ∈ emptyRec.user_index → False) ∧
    (recommend_products emptyRec mHalf cfgFallback [] "bob" 5).explanation =
      "No recommendations available" ∧
    ¬ ("popularity".toList <:+:
      (recommend_products emptyRec mHalf cfgFallback [] "bob" 5).explanation.toList) := by
  refine ⟨by decide, fun h => List.not_mem_nil "bob" h, by decide, by decide⟩

/-- Claim C5 (amended): the cold-start flag is true exactly when the
username is absent from the recommender's user index, and it does not
depend on the review corpus; whenever the candidate list is non-empty,
the explanation is the collaborative-filtering + sentiment string for a
known user and the popularity string for a cold-start user. -/
theorem recommend_products_cold_start (rec : CFRecommender) (m : MLModel) (cfg : NormCfg)
    (reviews_df : List ReviewRow) (username : String) (n : ℕ) :
    ((recommend_products rec m cfg reviews_df username n).cold_start = true ↔
      username ∉ rec.user_index) ∧
    (∀ reviews_df2 : List ReviewRow,
      (recommend_products rec m cfg reviews_df2 username n).cold_start =
        (recommend_products rec m cfg reviews_df username n).cold_start) ∧
    (rec.recommend username 50 ≠ [] →
      (recommend_products rec m cfg reviews_df username n).explanation =
        if username ∈ rec.user_index then
          "Recommended based on collaborative filtering + sentiment analysis"
        else "Recommended based on popularity") := by
  have hc : ∀ df : List ReviewRow,
      (recommend_products rec m cfg df username n).cold_start =
        !(rec.user_index.contains username) := by
    intro df
    simp only [recommend_products]
    split <;> rfl
  refine ⟨?_, fun df2 => (hc df2).trans (hc reviews_df).symm, ?_⟩
  · rw [hc reviews_df]
    simp [List.contains, List.elem_iff]
  · intro hne
    simp only [recommend_products]
    rw [if_neg hne]
    by_cases hmem : username ∈ rec.user_index
    · have hct : rec.user_index.contains username = true := List.elem_iff.mpr hmem
      simp [hct, hmem]
    · have hct : rec.user_index.contains username = false := by
        cases hb : rec.user_index.contains username with
        | false => rfl
        | true => exact absurd (List.elem_iff.mp hb) hmem
      simp [hct, hmem]

/-- Witness for C5 (amended): a known user with a non-empty candidate
list gets the collaborative-filtering + sentiment explanation. -/
theorem recommend_products_cold_start_witness :
    oneRec.recommend "alice" 50 ≠ [] ∧
    (recommend_products oneRec mHalf cfgFallback [] "alice" 5).explanation =
      (if "alice" ∈ oneRec.user_index then
        "Recommended based on collaborative filtering + sentiment analysis"
      else "Recommended based on popularity") :=
  ⟨by decide,
    (recommend_products_cold_start oneRec mHalf cfgFallback [] "alice" 5).2.2 (by decide)⟩

/-! ### Claim C2 -/

/-- Claim C2: every recommendation returned by `recommend_products` is for
a product with at least one review in the corpus (zero-review candidates
are skipped), its `review_count` is exactly the number of reviews for
that product in the corpus, and its score is the arithmetic mean of the
positive-class probabilities that `predict_sentiment` assigns to those
reviews. -/
theorem recommend_products_scores (rec : CFRecommender) (m : MLModel) (cfg : NormCfg)
    (reviews_df : List ReviewRow) (username : String) (n : ℕ) (r : Recommendation)
    (hr : r ∈ (recommend_products rec m cfg reviews_df username n).recommendations) :
    productReviews reviews_df r.product ≠ [] ∧
    r.review_count = (productReviews reviews_df r.product).length ∧
    r.sentiment_score =
      ((productReviews reviews_df r.product).map
          (fun review => (predict_sentiment m cfg (.str review)).probability)).sum /
        ((productReviews reviews_df r.product).length : ℚ) := by
  simp only [recommend_products] at hr
  split at hr
  · exact absurd hr (List.not_mem_nil r)
  · obtain ⟨item, hitem, rfl⟩ := List.mem_map.mp hr
    have hscore : item ∈ scoreCandidates m cfg reviews_df (rec.recommend username 50) := by
      have := List.mem_of_mem_take hitem
      simpa [sortScores] using this
    obtain ⟨p, _, hp⟩ := List.mem_filterMap.mp hscore
    simp only [scoreCandidates] at hp
    split at hp
    · exact Option.noConfusion hp
    · rename_i hlen
      obtain rfl := Option.some_inj.mp hp
      refine ⟨?_, ?_, ?_⟩
      · simpa [← List.length_eq_zero] using hlen
      · simp
      · simp

/-- Witness for C2: a one-candidate, one-review corpus where the returned
recommendation carries score 1/2 over a single review. -/
theorem recommend_products_scores_witness :
    (⟨"prodA", 1/2, 1⟩ : Recommendation) ∈
      (recommend_products oneRec mHalf cfgFallback oneRowDf "alice" 5).recommendations ∧
    productReviews oneRowDf (Recommendation.product ⟨"prodA", 1/2, 1⟩) ≠ [] := by
  have hp : preprocess_text cfgFallback (.str "great product works fine") =
      "great product works fine" := by decide
  have hps : predict_sentiment mHalf cfgFallback (.str "great product works fine") =
      { sentiment := .positive, probability := 1/2, confidence := max (1/2) (1 - 1/2),
        error := none } := by
    simp [predict_sentiment, hp, mHalf]
  have hrev : productReviews oneRowDf "prodA" = ["great product works fine"] := by decide
  have hmem : (⟨"prodA", 1/2, 1⟩ : Recommendation) ∈
      (recommend_products oneRec mHalf cfgFallback oneRowDf "alice" 5).recommendations := by
    have hsc : scoreCandidates mHalf cfgFallback oneRowDf ["prodA"] =
        [⟨"prodA", 1/2, 1⟩] := by
      rw [scoreCandidates, List.filterMap_cons, List.filterMap_nil]
      norm_num [hrev, hps]
    simp only [recommend_products, oneRec]
    rw [if_neg (by decide)]
    rw [hsc]
    simp [sortScores, List.insertionSort, List.orderedInsert]
  exact ⟨hmem,
    (recommend_products_scores oneRec mHalf cfgFallback oneRowDf "alice" 5 _ hmem).1⟩

/-! ### Claim C1: stability machinery

Python's `list.sort` is stable; with `reverse=True` it produces the
unique stable descending order.  Stability is expressed on the
index-annotated score list: the sorted annotated list is pairwise
either strictly descending in ratio, or tied with strictly increasing
original position. -/

theorem orderedInsert_stable (x : ℕ × ProductScore) :
    ∀ l : List (ℕ × ProductScore), List.Sorted ratioGEIdx l → l.Pairwise stableBelow →
      (∀ p ∈ l, x.1 < p.1) → (l.orderedInsert ratioGEIdx x).Pairwise stableBelow
  | [], _, _, _ => List.pairwise_singleton stableBelow x
  | y :: ys, hs, hp, hidx => by
    by_cases hxy : ratioGEIdx x y
    · rw [List.orderedInsert, if_pos hxy]
      refine List.Pairwise.cons ?_ hp
      intro q hq
      have hqle : q.2.positive_ratio ≤ x.2.positive_ratio := by
        rcases List.mem_cons.mp hq with rfl | hq2
        · exact hxy
        · exact le_trans (List.rel_of_sorted_cons hs q hq2) hxy
      rcases lt_or_eq_of_le hqle with hlt | heq
      · exact Or.inl hlt
      · exact Or.inr ⟨heq.symm, hidx q hq⟩
    · rw [List.orderedInsert, if_neg hxy]
      have hlt : x.2.positive_ratio < y.2.positive_ratio := not_le.mp hxy
      refine List.Pairwise.cons ?_
        (orderedInsert_stable x ys hs.of_cons hp.of_cons
          (fun p hp2 => hidx p (List.mem_cons_of_mem y hp2)))
      intro q hq
      rcases (List.mem_orderedInsert ratioGEIdx).mp hq with rfl | hq2
      · exact Or.inl hlt
      · exact List.rel_of_pairwise_cons hp hq2

theorem sort_enumFrom_stable :
    ∀ (l : List ProductScore) (k : ℕ),
      ((l.enumFrom k).insertionSort ratioGEIdx).Pairwise stableBelow
  | [], _ => List.Pairwise.nil
  | a :: l, k => by
    rw [List.enumFrom, List.insertionSort]
    refine orderedInsert_stable (k, a) _ (List.sorted_insertionSort ratioGEIdx _)
      (sort_enumFrom_stable l (k + 1)) ?_
    intro p hp
    have hp2 : p ∈ List.enumFrom (k + 1) l := (List.mem_insertionSort ratioGEIdx).mp hp
    have := (List.mem_enumFrom hp2).1
    omega

theorem sortScores_enum_proj (l : List ProductScore) :
    ((l.enum).insertionSort ratioGEIdx).map Prod.snd = sortScores l := by
  rw [List.map_insertionSort ratioGEIdx ratioGE Prod.snd l.enum
    (fun _ _ _ _ => Iff.rfl), List.enum_map_snd]
  rfl

/-- Claim C1: for every `n` in `[1,20]` and candidate list of size `k`,
`recommend_products` returns at most `min n k` recommendations, sorted by
descending score; the returned list is the image of the stable descending
sort of the index-annotated score list (candidate order preserved on
ties), truncated to `n`. -/
theorem recommend_products_top_n (rec : CFRecommender) (m : MLModel) (cfg : NormCfg)
    (reviews_df : List ReviewRow) (username : String) (n : ℕ)
    (h1 : 1 ≤ n) (h2 : n ≤ 20) :
    (recommend_products rec m cfg reviews_df username n).recommendations.length ≤
      min n (rec.recommend username 50).length ∧
    (recommend_products rec m cfg reviews_df username n).recommendations.Pairwise
      (fun a b => b.sentiment_score ≤ a.sentiment_score) ∧
    (recommend_products rec m cfg reviews_df username n).recommendations =
      (((((scoreCandidates m cfg reviews_df (rec.recommend username 50)).enum).insertionSort
          ratioGEIdx).map Prod.snd).take n).map
        (fun item => ⟨item.product, item.positive_ratio, item.review_count⟩) ∧
    (((scoreCandidates m cfg reviews_df (rec.recommend username 50)).enum).insertionSort
      ratioGEIdx).Pairwise stableBelow := by
  by_cases hc : rec.recommend username 50 = []
  · refine ⟨?_, ?_, ?_, ?_⟩
    · simp [recommend_products, hc]
    · simp [recommend_products, hc]
    · simp [recommend_products, hc, scoreCandidates, List.insertionSort]
    · simp [hc, scoreCandidates, List.insertionSort]
  · have hrp : (recommend_products rec m cfg reviews_df username n).recommendations =
        ((sortScores (scoreCandidates m cfg reviews_df (rec.recommend username 50))).take
          n).map
          (fun item => ⟨item.product, item.positive_ratio, item.review_count⟩) := by
      simp only [recommend_products]
      rw [if_neg hc]
    refine ⟨?_, ?_, ?_, ?_⟩
    · rw [hrp, List.length_map, List.length_take, sortScores, List.length_insertionSort]
      exact min_le_min le_rfl (List.length_filterMap_le _ _)
    · rw [hrp, List.pairwise_map]
      have hsorted : (sortScores
          (scoreCandidates m cfg reviews_df (rec.recommend username 50))).Pairwise ratioGE :=
        List.sorted_insertionSort ratioGE _
      exact (hsorted.sublist (List.take_sublist n _)).imp (fun h => h)
    · rw [hrp, sortScores_enum_proj]
    · exact sort_enumFrom_stable _ 0

/-- Witness for C1 at two tied candidates and n = 2. -/
theorem recommend_products_top_n_witness :
    1 ≤ 2 ∧ 2 ≤ 20 ∧
    (recommend_products ⟨["alice"], fun _ _ => ["prodA", "prodB"]⟩ mHalf cfgFallback
      (⟨"prodB", "poor quality broke fast"⟩ :: oneRowDf) "alice" 2).recommendations.length ≤
      min 2 ((⟨["alice"], fun _ _ => ["prodA", "prodB"]⟩ : CFRecommender).recommend
        "alice" 50).length :=
  ⟨by decide, by decide,
    (recommend_products_top_n ⟨["alice"], fun _ _ => ["prodA", "prodB"]⟩ mHalf cfgFallback
      (⟨"prodB", "poor quality broke fast"⟩ :: oneRowDf) "alice" 2
      (by decide) (by decide)).1⟩

/-! ### Claims C7 and C10: normalizer output shape and idempotence -/

theorem isLowerAlnum_not_space {c : Char} (h : isLowerAlnum c = true) :
    pyIsSpace c = false := by
  cases hb : pyIsSpace c with
  | false => rfl
  | true =>
    simp only [pyIsSpace, Bool.or_eq_true, decide_eq_true_eq, or_assoc] at hb
    rcases hb with rfl | rfl | rfl | rfl | rfl | rfl <;> exact absurd h (by decide)

theorem isLowerAlnum_ne_at {c : Char} (h : isLowerAlnum c = true) : c ≠ '@' := by
  rintro rfl
  exact absurd h (by decide)

theorem isLowerAlnum_keepChar {c : Char} (h : isLowerAlnum c = true) : keepChar c = true := by
  simp only [keepChar, Bool.or_eq_true]
  simp only [isLowerAlnum, Bool.or_eq_true] at h
  exact Or.inl (Or.imp id id h)

theorem keepChar_not_space {c : Char} (h1 : keepChar c = true) (h2 : pyIsSpace c = false) :
    isLowerAlnum c = true := by
  simp only [keepChar, Bool.or_eq_true, h2] at h1
  simp only [isLowerAlnum, Bool.or_eq_true]
  rcases h1 with h | h
  · exact h
  · exact Bool.noConfusion h

theorem pyLowerChar_fix {c : Char} (h : isLowerAlnum c = true ∨ c = ' ') :
    pyLowerChar c = c := by
  have hz : ¬('A' ≤ c ∧ c ≤ 'Z') := by
    rcases h with h | rfl
    · simp only [isLowerAlnum, Bool.or_eq_true, Bool.and_eq_true, decide_eq_true_eq] at h
      rcases h with ⟨ha, _⟩ | ⟨_, hb⟩
      · rintro ⟨_, hle⟩
        exact absurd (lt_of_lt_of_le (by decide : ('Z' : Char) < 'a') ha) (not_lt.mpr hle)
      · rintro ⟨hge, _⟩
        exact absurd (lt_of_le_of_lt hb (by decide : ('9' : Char) < 'A')) (not_lt.mpr hge)
    · decide
  simp [pyLowerChar, hz]

/-! Structure of `splitRaw` and `pySplit`. -/

theorem splitRaw_ne_nil : ∀ l : List Char, splitRaw l ≠ []
  | [] => by simp [splitRaw]
  | c :: cs => by
    have := splitRaw_ne_nil cs
    simp only [splitRaw, List.foldr_cons] at *
    unfold splitStep
    split <;> simp

theorem splitRaw_chars : ∀ (l : List Char), ∀ t ∈ splitRaw l, ∀ c ∈ t,
    pyIsSpace c = false ∧ c ∈ l
  | [] => by
    intro t ht c hc
    simp only [splitRaw, List.foldr_nil, List.mem_singleton] at ht
    subst ht
    exact absurd hc (List.not_mem_nil c)
  | a :: l => by
    intro t ht c hc
    have hrec := splitRaw_chars l
    obtain ⟨h0, tl, hsr⟩ := List.exists_cons_of_ne_nil (splitRaw_ne_nil l)
    have hfold : splitRaw (a :: l) = splitStep a (splitRaw l) := rfl
    rw [hfold, hsr] at ht
    unfold splitStep at ht
    split at ht
    · rename_i hsp
      rcases List.mem_cons.mp ht with rfl | ht2
      · exact absurd hc (List.not_mem_nil c)
      · have ht3 : t ∈ splitRaw l := by rw [hsr]; exact ht2
        obtain ⟨h1, h2⟩ := hrec t ht3 c hc
        exact ⟨h1, List.mem_cons_of_mem a h2⟩
    · rename_i hsp
      simp only [List.headD_cons, List.tail_cons] at ht
      rcases List.mem_cons.mp ht with rfl | ht2
      · rcases List.mem_cons.mp hc with rfl | hc2
        · exact ⟨Bool.of_not_eq_true hsp, List.mem_cons_self c l⟩
        · have hm : h0 ∈ splitRaw l := by rw [hsr]; exact List.mem_cons_self h0 tl
          obtain ⟨h1, h2⟩ := hrec h0 hm c hc2
          exact ⟨h1, List.mem_cons_of_mem a h2⟩
      · have ht3 : t ∈ splitRaw l := by rw [hsr]; exact List.mem_cons_of_mem h0 ht2
        obtain ⟨h1, h2⟩ := hrec t ht3 c hc
        exact ⟨h1, List.mem_cons_of_mem a h2⟩

theorem pySplit_chars {l : List Char} {t : List Char} (ht : t ∈ pySplit l) :
    ∀ c ∈ t, pyIsSpace c = false ∧ c ∈ l :=
  splitRaw_chars l t (List.mem_filter.mp ht).1

theorem joinSpace_cons_cons (t t2 : List Char) (ts : List (List Char)) :
    joinSpace (t :: t2 :: ts) = t ++ ' ' :: joinSpace (t2 :: ts) := rfl

theorem mem_joinSpace : ∀ (ts : List (List Char)) (c : Char), c ∈ joinSpace ts →
    (∃ t ∈ ts, c ∈ t) ∨ c = ' '
  | [], c, hc => absurd hc (List.not_mem_nil c)
  | [t], c, hc => Or.inl ⟨t, List.mem_singleton_self t, hc⟩
  | t :: t2 :: ts, c, hc => by
    rw [joinSpace_cons_cons] at hc
    rcases List.mem_append.mp hc with h | h
    · exact Or.inl ⟨t, List.mem_cons_self t _, h⟩
    · rcases List.mem_cons.mp h with rfl | h2
      · exact Or.inr rfl
      · rcases mem_joinSpace (t2 :: ts) c h2 with ⟨u, hu, hcu⟩ | rfl
        · exact Or.inl ⟨u, List.mem_cons_of_mem t hu, hcu⟩
        · exact Or.inr rfl

theorem token_infix_joinSpace : ∀ (ts : List (List Char)) (t : List Char), t ∈ ts →
    t <:+: joinSpace ts
  | [], t, ht => absurd ht (List.not_mem_nil t)
  | [u], t, ht => by
    rcases List.mem_singleton.mp ht with rfl
    exact List.infix_rfl
  | u :: u2 :: ts, t, ht => by
    rcases List.mem_cons.mp ht with rfl | ht2
    · rw [joinSpace_cons_cons]
      exact ⟨[], ' ' :: joinSpace (u2 :: ts), rfl⟩
    · have h := token_infix_joinSpace (u2 :: ts) t ht2
      rw [joinSpace_cons_cons]
      exact h.trans ⟨u ++ [' '], [], by simp⟩

theorem foldr_runStep_nonspace (emit : List Char → List Char) :
    ∀ t : List Char, (∀ c ∈ t, pyIsSpace c = false) →
      ∀ st : List Char × List Char, t.foldr (runStep emit) st = (t ++ st.1, st.2)
  | [], _, st => by simp
  | c :: t, h, st => by
    have hc : pyIsSpace c = false := h c (List.mem_cons_self c t)
    have ht := foldr_runStep_nonspace emit t (fun x hx => h x (List.mem_cons_of_mem c hx)) st
    simp only [List.foldr_cons, ht]
    unfold runStep
    rw [if_neg (by simp [hc])]
    simp

theorem runFoldr_joinSpace (emit : List Char → List Char) (he : emit [] = []) :
    ∀ ts : List (List Char), (∀ t ∈ ts, ∀ c ∈ t, pyIsSpace c = false) →
      runFoldr emit (joinSpace ts) = joinSpace (ts.map emit)
  | [], _ => by simp [runFoldr, joinSpace, he]
  | [t], h => by
    have hj : joinSpace [t] = t := rfl
    simp only [List.map, hj]
    simp only [runFoldr]
    rw [foldr_runStep_nonspace emit t (h t (List.mem_singleton_self t)) ([], [])]
    simp [joinSpace]
  | t :: t2 :: ts, h => by
    have hrec := runFoldr_joinSpace emit he (t2 :: ts)
      (fun u hu => h u (List.mem_cons_of_mem t hu))
    rw [joinSpace_cons_cons]
    simp only [runFoldr]
    rw [List.foldr_append]
    have hS : (' ' :: joinSpace (t2 :: ts) : List Char).foldr (runStep emit) ([], []) =
        ([], ' ' :: (emit ((joinSpace (t2 :: ts)).foldr (runStep emit) ([], [])).1 ++
          ((joinSpace (t2 :: ts)).foldr (runStep emit) ([], [])).2)) := by
      simp only [List.foldr_cons]
      unfold runStep
      rw [if_pos (by decide)]
    rw [hS, foldr_runStep_nonspace emit t (h t (List.mem_cons_self t _)) _]
    simp only [List.append_nil, List.map_cons]
    rw [joinSpace_cons_cons, ← List.map_cons, ← hrec]
    rfl

theorem foldr_splitStep_nonspace :
    ∀ t : List Char, (∀ c ∈ t, pyIsSpace c = false) →
      ∀ (h0 : List Char) (tl : List (List Char)),
        t.foldr splitStep (h0 :: tl) = (t ++ h0) :: tl
  | [], _, h0, tl => rfl
  | c :: t, h, h0, tl => by
    have hc : pyIsSpace c = false := h c (List.mem_cons_self c t)
    have ht := foldr_splitStep_nonspace t (fun x hx => h x (List.mem_cons_of_mem c hx)) h0 tl
    simp only [List.foldr_cons, ht]
    unfold splitStep
    rw [if_neg (by simp [hc])]
    simp

theorem pySplit_joinSpace :
    ∀ ts : List (List Char), (∀ t ∈ ts, t ≠ []) →
      (∀ t ∈ ts, ∀ c ∈ t, pyIsSpace c = false) →
      pySplit (joinSpace ts) = ts
  | [], _, _ => rfl
  | [t], hne, hns => by
    have hj : joinSpace [t] = t := rfl
    rw [hj]
    simp only [pySplit, splitRaw]
    rw [foldr_splitStep_nonspace t (hns t (List.mem_singleton_self t)) [] []]
    simp only [List.filter, List.append_nil]
    rcases t with _ | ⟨c, t0⟩
    · exact absurd rfl (hne [] (List.mem_singleton_self []))
    · rfl
  | t :: t2 :: ts, hne, hns => by
    have hrec := pySplit_joinSpace (t2 :: ts) (fun u hu => hne u (List.mem_cons_of_mem t hu))
      (fun u hu => hns u (List.mem_cons_of_mem t hu))
    rw [joinSpace_cons_cons]
    simp only [pySplit, splitRaw] at hrec ⊢
    rw [List.foldr_append]
    have h1 : (' ' :: joinSpace (t2 :: ts) : List Char).foldr splitStep [[]] =
        [] :: (joinSpace (t2 :: ts)).foldr splitStep [[]] := by
      simp only [List.foldr_cons]
      unfold splitStep
      rw [if_pos (by decide)]
    rw [h1, foldr_splitStep_nonspace t (hns t (List.mem_cons_self t _)) [] _]
    rw [List.filter_cons, if_pos (by simp [hne t (List.mem_cons_self t _)])]
    rw [hrec]
    simp

/-! URL and email substitutions act as the identity on clean tokens. -/

theorem urlHeadMatch_infix : ∀ l : List Char, urlHeadMatch l = true →
    (['h', 't', 't', 'p'] <:+: l) ∨ (['w', 'w', 'w'] <:+: l) := by
  intro l h
  unfold urlHeadMatch at h
  split at h
  · rename_i c cs
    exact Or.inl ⟨[], c :: cs, rfl⟩
  · rename_i c cs
    exact Or.inr ⟨[], c :: cs, rfl⟩
  · exact Bool.noConfusion h

theorem infix_cons_lift {pat l : List Char} (c : Char) (h : pat <:+: l) : pat <:+: c :: l := by
  obtain ⟨s, t2, rfl⟩ := h
  exact ⟨c :: s, t2, rfl⟩

theorem urlCut_id : ∀ t : List Char, ¬(['h', 't', 't', 'p'] <:+: t) →
    ¬(['w', 'w', 'w'] <:+: t) → urlCut t = t
  | [], _, _ => rfl
  | c :: cs, h1, h2 => by
    have hm : urlHeadMatch (c :: cs) = false := by
      cases hb : urlHeadMatch (c :: cs) with
      | false => rfl
      | true =>
        rcases urlHeadMatch_infix _ hb with h | h
        · exact absurd h h1
        · exact absurd h h2
    rw [urlCut, if_neg (by simp [hm])]
    rw [urlCut_id cs (fun h => h1 (infix_cons_lift c h)) (fun h => h2 (infix_cons_lift c h))]

theorem emailCut_id {t : List Char} (h : ∀ c ∈ t, c ≠ '@') : emailCut t = t := by
  have hk : emailKill t = false := by
    cases hb : emailKill t with
    | false => rfl
    | true =>
      have hmem : '@' ∈ t.tail.dropLast := List.elem_iff.mp hb
      have hmem2 : '@' ∈ t :=
        (List.tail_sublist t).subset ((List.dropLast_sublist t.tail).subset hmem)
      exact absurd rfl (h '@' hmem2)
  unfold emailCut
  rw [if_neg (by simp [hk])]

/-! Token properties of the normalizer output (pass-through lemmatizer). -/

theorem tokensOf_props (sw : List (List Char)) (l : List Char) :
    ∀ t ∈ tokensOf ⟨sw, id⟩ l, 2 < t.length ∧ t ∉ sw ∧ ∀ c ∈ t, isLowerAlnum c = true := by
  intro t ht
  unfold tokensOf at ht
  simp only [List.map_id] at ht
  unfold tokenFilter at ht
  obtain ⟨hmem, hcond⟩ := List.mem_filter.mp ht
  obtain ⟨hnc, hlen⟩ := (Bool.and_eq_true _ _).mp hcond
  refine ⟨of_decide_eq_true hlen, ?_, ?_⟩
  · intro hmem2
    have hcont : sw.contains t = true := List.elem_iff.mpr hmem2
    rw [hcont] at hnc
    exact Bool.noConfusion hnc
  · intro c hc
    obtain ⟨hns, hcs⟩ := pySplit_chars hmem c hc
    have hkeep : keepChar c = true := (List.mem_filter.mp hcs).2
    exact keepChar_not_space hkeep hns

/-! The guard of a second pass never fires on a non-empty output. -/

theorem pyStripChars_ne_nil {l : List Char} {c : Char} (hc : c ∈ l)
    (hcs : pyIsSpace c = false) : pyStripChars l ≠ [] := by
  intro h
  have h1 : (l.dropWhile pyIsSpace).reverse.dropWhile pyIsSpace = [] :=
    List.reverse_eq_nil_iff.mp h
  have h2 : ∀ x ∈ l.dropWhile pyIsSpace, pyIsSpace x = true := by
    intro x hx
    simpa using List.dropWhile_eq_nil_iff.mp h1 x (List.mem_reverse.mpr hx)
  have hne : l.dropWhile pyIsSpace ≠ [] := by
    intro h0
    have := List.dropWhile_eq_nil_iff.mp h0 c hc
    rw [hcs] at this
    exact Bool.noConfusion this
  have hh := List.head_dropWhile_not pyIsSpace l hne
  rw [h2 _ (List.head_mem hne)] at hh
  exact Bool.noConfusion hh

/-- The whole preprocessing pipeline fixes a join of clean tokens, as long
as no token re-triggers the URL pattern. -/
theorem preprocessList_fixed (sw : List (List Char)) (ts : List (List Char))
    (hprops : ∀ t ∈ ts, 2 < t.length ∧ t ∉ sw ∧ ∀ c ∈ t, isLowerAlnum c = true)
    (h1 : ¬(['h', 't', 't', 'p'] <:+: joinSpace ts))
    (h2 : ¬(['w', 'w', 'w'] <:+: joinSpace ts)) :
    preprocessList ⟨sw, id⟩ (joinSpace ts) = joinSpace ts := by
  have hns : ∀ t ∈ ts, ∀ c ∈ t, pyIsSpace c = false := fun t ht c hc =>
    isLowerAlnum_not_space ((hprops t ht).2.2 c hc)
  have hne : ∀ t ∈ ts, t ≠ [] := by
    intro t ht h0
    have := (hprops t ht).1
    rw [h0] at this
    simp at this
  have hlow : pyLower (joinSpace ts) = joinSpace ts := by
    unfold pyLower
    refine (List.map_congr_left ?_).trans (List.map_id _)
    intro c hc
    rcases mem_joinSpace ts c hc with ⟨t, ht, hct⟩ | rfl
    · exact pyLowerChar_fix (Or.inl ((hprops t ht).2.2 c hct))
    · exact pyLowerChar_fix (Or.inr rfl)
  have hurl : stripUrls (joinSpace ts) = joinSpace ts := by
    unfold stripUrls
    rw [runFoldr_joinSpace urlCut rfl ts hns]
    refine congrArg joinSpace ((List.map_congr_left ?_).trans (List.map_id _))
    intro t ht
    exact urlCut_id t (fun h => h1 (h.trans (token_infix_joinSpace ts t ht)))
      (fun h => h2 (h.trans (token_infix_joinSpace ts t ht)))
  have hmail : stripEmails (joinSpace ts) = joinSpace ts := by
    unfold stripEmails
    rw [runFoldr_joinSpace emailCut rfl ts hns]
    refine congrArg joinSpace ((List.map_congr_left ?_).trans (List.map_id _))
    intro t ht
    exact emailCut_id (fun c hc => isLowerAlnum_ne_at ((hprops t ht).2.2 c hc))
  have hspec : stripSpecial (joinSpace ts) = joinSpace ts := by
    apply List.filter_eq_self.mpr
    intro c hc
    rcases mem_joinSpace ts c hc with ⟨t, ht, hct⟩ | rfl
    · exact isLowerAlnum_keepChar ((hprops t ht).2.2 c hct)
    · decide
  have hsplit : pySplit (joinSpace ts) = ts := pySplit_joinSpace ts hne hns
  have hfilt : tokenFilter sw ts = ts := by
    apply List.filter_eq_self.mpr
    intro t ht
    obtain ⟨hlen, hnmem, _⟩ := hprops t ht
    have hc : sw.contains t = false := by
      cases hb : sw.contains t with
      | false => rfl
      | true => exact absurd (List.elem_iff.mp hb) hnmem
    simp [hc, hlen, hnmem]
  unfold preprocessList tokensOf
  simp only
  rw [hlow, hurl, hmail, hspec, hsplit, hfilt, List.map_id]

/-! ### Claim C7 -/

/-- Counterexample to C7 as stated: with pass-through lemmatization,
normalizing `h!ttpx` yields `httpx` (the `!` is stripped after the URL
pass), and a second normalization deletes `httpx` as a URL match,
yielding the empty string. -/
theorem preprocess_text_not_idempotent :
    preprocess_text cfgFallback (.str "h!ttpx") = "httpx" ∧
    preprocess_text cfgFallback (.str (preprocess_text cfgFallback (.str "h!ttpx"))) = "" ∧
    ("" : String) ≠ "httpx" :=
  ⟨by decide, by decide, by decide⟩

/-- Claim C7 (amended): with pass-through lemmatization, `preprocess_text`
is idempotent on every input whose normalized output contains no
occurrence of `http` or `www`; re-normalizing such an output returns it
unchanged. -/
theorem preprocess_text_idempotent (sw : List (List Char)) (s : String)
    (h1 : ¬(['h', 't', 't', 'p'] <:+: (preprocess_text ⟨sw, id⟩ (.str s)).toList))
    (h2 : ¬(['w', 'w', 'w'] <:+: (preprocess_text ⟨sw, id⟩ (.str s)).toList)) :
    preprocess_text ⟨sw, id⟩ (.str (preprocess_text ⟨sw, id⟩ (.str s))) =
      preprocess_text ⟨sw, id⟩ (.str s) := by
  by_cases hg : pyStripChars s.toList = []
  · have hout : preprocess_text ⟨sw, id⟩ (.str s) = "" := by
      simp only [preprocess_text]
      rw [if_pos hg]
    rw [hout]
    rfl
  · have hout : preprocess_text ⟨sw, id⟩ (.str s) =
        String.mk (preprocessList ⟨sw, id⟩ s.toList) := by
      simp only [preprocess_text]
      rw [if_neg hg]
    have hprops := tokensOf_props sw s.toList
    cases hts0 : tokensOf ⟨sw, id⟩ s.toList with
    | nil =>
      have hplnil : preprocessList ⟨sw, id⟩ s.toList = [] := by
        unfold preprocessList
        rw [hts0]
        rfl
      rw [hout, hplnil]
      rfl
    | cons t ts' =>
      have hjoin : preprocessList ⟨sw, id⟩ s.toList = joinSpace (t :: ts') := by
        unfold preprocessList
        rw [hts0]
      obtain ⟨hlen, hnm, hchars⟩ :=
        hprops t (by rw [hts0]; exact List.mem_cons_self t ts')
      obtain ⟨c0, t0, hct⟩ := List.exists_cons_of_ne_nil
        (show t ≠ [] by intro h0; rw [h0] at hlen; simp at hlen)
      have hc0t : c0 ∈ t := by rw [hct]; exact List.mem_cons_self c0 t0
      have hc0 : c0 ∈ joinSpace (t :: ts') := by
        cases ts' with
        | nil => exact hc0t
        | cons u us =>
          rw [joinSpace_cons_cons]
          exact List.mem_append.mpr (Or.inl hc0t)
      have hc0ns : pyIsSpace c0 = false := isLowerAlnum_not_space (hchars c0 hc0t)
      have hguard : pyStripChars (joinSpace (t :: ts')) ≠ [] :=
        pyStripChars_ne_nil hc0 hc0ns
      have hpropsAll : ∀ u ∈ t :: ts',
          2 < u.length ∧ u ∉ sw ∧ ∀ c ∈ u, isLowerAlnum c = true :=
        fun u hu => hprops u (by rw [hts0]; exact hu)
      have hout2 : (preprocess_text ⟨sw, id⟩ (.str s)).toList = joinSpace (t :: ts') :=
        (congrArg String.toList hout).trans hjoin
      rw [hout2] at h1 h2
      rw [hout, hjoin]
      have hstep : preprocess_text ⟨sw, id⟩ (.str (String.mk (joinSpace (t :: ts')))) =
          String.mk (preprocessList ⟨sw, id⟩ (joinSpace (t :: ts'))) := by
        simp only [preprocess_text]
        rw [show (String.mk (joinSpace (t :: ts'))).toList = joinSpace (t :: ts') from rfl]
        rw [if_neg hguard]
      rw [hstep, preprocessList_fixed sw (t :: ts') hpropsAll h1 h2]

/-- Witness for C7 (amended) on a text whose normalization contains no
URL-pattern substring. -/
theorem preprocess_text_idempotent_witness :
    (¬(['h', 't', 't', 'p'] <:+:
      (preprocess_text ⟨FALLBACK_STOPWORDS, id⟩ (.str "Great phone, loved the camera!")).toList)) ∧
    (¬(['w', 'w', 'w'] <:+:
      (preprocess_text ⟨FALLBACK_STOPWORDS, id⟩ (.str "Great phone, loved the camera!")).toList)) ∧
    preprocess_text ⟨FALLBACK_STOPWORDS, id⟩
        (.str (preprocess_text ⟨FALLBACK_STOPWORDS, id⟩ (.str "Great phone, loved the camera!"))) =
      preprocess_text ⟨FALLBACK_STOPWORDS, id⟩ (.str "Great phone, loved the camera!") :=
  ⟨by decide, by decide,
    preprocess_text_idempotent FALLBACK_STOPWORDS "Great phone, loved the camera!"
      (by decide) (by decide)⟩

/-! ### Claim C10 -/

/-- Counterexample to C10 as stated: lemmatization is an external
resource that can shorten tokens (WordNet maps the irregular noun `oxen`
to `ox`), so with the lemmatizer active the output token can have length
2, and no token decomposition of the output with all lengths above 2
exists. -/
theorem preprocess_text_shape_counterexample :
    preprocess_text cfgOx (.str "oxen") = "ox" ∧
    ∀ ts : List (List Char), (∀ t ∈ ts, 2 < t.length) → joinSpace ts ≠ "ox".toList := by
  refine ⟨by decide, ?_⟩
  rintro (_ | ⟨t, ts⟩) hts hj
  · exact absurd hj (by decide)
  · have hlen := hts t (List.mem_cons_self t ts)
    have hlj : (joinSpace (t :: ts)).length = 2 := by rw [hj]; rfl
    cases ts with
    | nil =>
      have hsingle : joinSpace [t] = t := rfl
      rw [hsingle] at hlj
      omega
    | cons u us =>
      rw [joinSpace_cons_cons, List.length_append, List.length_cons] at hlj
      omega

/-- Claim C10 (amended): with pass-through lemmatization, the output of
`preprocess_text` is the space-join of a (possibly empty) token list in
which every token consists only of characters in `[a-z0-9]`, has length
at least 3, and is not in the active stopword set; in particular the
output has no leading/trailing whitespace and single spaces between
tokens. -/
theorem preprocess_text_shape (sw : List (List Char)) (v : PyVal) :
    ∃ ts : List (List Char),
      (preprocess_text ⟨sw, id⟩ v).toList = joinSpace ts ∧
      ∀ t ∈ ts, 2 < t.length ∧ t ∉ sw ∧ ∀ c ∈ t, isLowerAlnum c = true := by
  cases v with
  | nonStr => exact ⟨[], rfl, fun t ht => absurd ht (List.not_mem_nil t)⟩
  | str s =>
    by_cases hg : pyStripChars s.toList = []
    · refine ⟨[], ?_, fun t ht => absurd ht (List.not_mem_nil t)⟩
      simp only [preprocess_text]
      rw [if_pos hg]
      rfl
    · refine ⟨tokensOf ⟨sw, id⟩ s.toList, ?_, tokensOf_props sw s.toList⟩
      simp only [preprocess_text]
      rw [if_neg hg]
      rfl

end SentiRec
